import Mathlib

/-!
Shallow embedding of the chunking + vector-index + retrieval engine of the
monkeyagent backend, and proofs about its specification.

Sources embedded:
- `backend/app/services/document_loader.py`, `DocumentLoader.chunk_text`
- `backend/app/services/indexer.py`, classes `DocumentIndexer` and
  `VectorSearchEngine`

Modelling conventions:
- Python strings are Lean `String`s; `str.split(sep)` and `str.strip()` are
  re-implemented structurally over `String.data` (`splitOnChar`, `stripChars`)
  so that they compute in the kernel.  `strip()` is modelled for ASCII
  whitespace.
- FAISS vectors are modelled as `List Int` (the numeric contents are opaque to
  every property considered here); the FAISS index is the list of its vectors
  in insertion order, `none` when uninitialized.
- `float` similarity scores are modelled as `Rat`.
- The Python dict `self.metadata` (int key -> record) preserves insertion
  order, so it is modelled as an association list in insertion order.
- The embedding model and the raw FAISS nearest-neighbour call are external
  collaborators: they enter as function parameters (`embed`) and as the list
  of raw `(score, index)` candidates returned by `index.search`.
- Disk persistence (`_save_index`) can fail; the boolean parameter `saveOk`
  selects whether the save raises.  A raised exception is an `Except.error`;
  the Python object's in-memory state after the call is returned alongside,
  since the object survives the exception.
-/

/-! ### Chunking: `DocumentLoader.chunk_text` -/

/-- Python `text.split(sep)` for a one-character separator, over char lists:
`"".split(c) = [""]`, separators delimit (possibly empty) pieces. -/
def splitOnChar (sep : Char) : List Char → List (List Char)
  | [] => [[]]
  | c :: rest =>
    if c = sep then [] :: splitOnChar sep rest
    else
      match splitOnChar sep rest with
      | [] => [[c]]
      | g :: gs => (c :: g) :: gs

/-- Python `str.strip()` (ASCII whitespace) over char lists. -/
def stripChars (cs : List Char) : List Char :=
  ((cs.dropWhile Char.isWhitespace).reverse.dropWhile Char.isWhitespace).reverse

/-- The stripped, non-empty sentences of a text, in order: what the loop in
`chunk_text` actually iterates over after `text.split('.')`, stripping and
skipping empties. -/
def nonEmptySentences (text : String) : List String :=
  (((splitOnChar '.' text.data).map (fun cs => String.mk (stripChars cs))).filter
    (fun s => s ≠ ""))

/-- Total character count of a group of sentences (the running
`current_length` of `chunk_text`: lengths only, join separators not counted). -/
def sumLen (g : List String) : Nat := (g.map String.length).sum

/-- `'. '.join(current_chunk) + '.'` -/
def joinChunk (g : List String) : String := String.intercalate ". " g ++ "."

/-- The sentence-accumulation loop of `chunk_text`, producing each chunk as its
list of sentences (the chunk string is `joinChunk` of the group).  Arguments
mirror the Python locals: the remaining (already stripped) sentences,
`current_chunk`, `current_length`. -/
def chunkGroupsLoop (chunkSize overlap : Nat) :
    List String → List String → Nat → List (List String)
  | [], cur, _ => if cur = [] then [] else [cur]
  | s :: rest, cur, curLen =>
    if s = "" then chunkGroupsLoop chunkSize overlap rest cur curLen
    else if chunkSize < curLen + s.length ∧ cur ≠ [] then
      cur ::
        (if 0 < overlap ∧ 1 < cur.length then
          chunkGroupsLoop chunkSize overlap rest
            (cur.drop (cur.length - overlap) ++ [s])
            (sumLen (cur.drop (cur.length - overlap) ++ [s]))
        else chunkGroupsLoop chunkSize overlap rest [s] s.length)
    else chunkGroupsLoop chunkSize overlap rest (cur ++ [s]) (curLen + s.length)

/-- The groups of sentences underlying `chunk_text`.  The argument defaulting
mirrors Python's `chunk_size or settings.MAX_CHUNK_SIZE` /
`overlap or settings.CHUNK_OVERLAP` (so `None`/`0` select 512 and 50: a zero
argument cannot switch overlap off). -/
def chunkGroups (text : String) (chunkSizeArg overlapArg : Nat) : List (List String) :=
  chunkGroupsLoop (if chunkSizeArg = 0 then 512 else chunkSizeArg)
    (if overlapArg = 0 then 50 else overlapArg)
    ((splitOnChar '.' text.data).map (fun cs => String.mk (stripChars cs))) [] 0

/-- `DocumentLoader.chunk_text`: chunk strings. -/
def chunkText (text : String) (chunkSizeArg overlapArg : Nat) : List String :=
  (chunkGroups text chunkSizeArg overlapArg).map joinChunk

/-! ### Data model of the indexer -/

/-- One entry of `self.metadata` (the per-vector record built in
`add_document_to_index`). -/
structure ChunkMeta where
  document_id : Int
  chunk_index : Nat
  text : String
  document_title : String
  chunk_length : Nat
deriving DecidableEq, Repr

/-- In-memory state of a `DocumentIndexer`: the FAISS index (list of vectors,
`none` = uninitialized), the metadata dict as an insertion-ordered association
list, and `self.dimension`. -/
structure IndexerState where
  index : Option (List (List Int))
  metadata : List (Nat × ChunkMeta)
  dimension : Option Nat
deriving DecidableEq, Repr

/-- A freshly constructed indexer with no persisted files. -/
def emptyIndexerState : IndexerState := ⟨none, [], none⟩

/-- `self.index.ntotal` (0 when uninitialized). -/
def totalVectors (s : IndexerState) : Nat :=
  match s.index with
  | none => 0
  | some vs => vs.length

/-- The metadata records in storage (vector-id) order. -/
def metas (s : IndexerState) : List ChunkMeta := s.metadata.map Prod.snd

/-- The Python loop `for i, chunk in enumerate(text_chunks)` of
`add_document_to_index`, building `metadata[start_vector_id + i]`. -/
def buildEntries (documentId : Int) (documentTitle : String) (start : Nat) :
    Nat → List String → List (Nat × ChunkMeta)
  | _, [] => []
  | i, c :: rest =>
    (start + i,
      { document_id := documentId, chunk_index := i, text := c,
        document_title := documentTitle, chunk_length := c.length }) ::
      buildEntries documentId documentTitle start (i + 1) rest

/-- `DocumentIndexer.add_document_to_index`.  `embed` is the external
embedding model (`_create_embeddings`); `saveOk` tells whether `_save_index`
succeeds.  Returns the Python return value (or the propagated exception) and
the in-memory state after the call. -/
def addDocumentToIndex (embed : String → List Int) (chunkSizeArg overlapArg : Nat)
    (saveOk : Bool) (s : IndexerState) (documentId : Int)
    (documentText documentTitle : String) :
    Except String (List Nat) × IndexerState :=
  let textChunks := chunkText documentText chunkSizeArg overlapArg
  if textChunks = [] then (Except.ok [], s)
  else
    let embeddings := textChunks.map embed
    let oldVecs := match s.index with | none => [] | some vs => vs
    let startVectorId := oldVecs.length
    let newEntries := buildEntries documentId documentTitle startVectorId 0 textChunks
    let s' : IndexerState :=
      { index := some (oldVecs ++ embeddings),
        metadata := s.metadata ++ newEntries,
        dimension :=
          match s.index with
          | none => some (embeddings.headD []).length
          | some _ => s.dimension }
    let vectorIds := newEntries.map Prod.fst
    if saveOk then (Except.ok vectorIds, s') else (Except.error "save failed", s')

/-! ### Search: `DocumentIndexer.search_similar_chunks` -/

/-- `self.metadata.get(idx, {})`, restricted to the `document_id` chain: the
record stored under FAISS id `idx`, if any. -/
def lookupMeta (s : IndexerState) (idx : Int) : Option ChunkMeta :=
  (s.metadata.find? (fun p => decide ((p.1 : Int) = idx))).map Prod.snd

/-- One search result dict (`vector_id`, `score` plus the `.get` defaults of
`search_similar_chunks`). -/
structure SearchHit where
  vector_id : Int
  score : Rat
  document_id : Option Int
  chunk_index : Option Nat
  text : String
  document_title : String
  chunk_length : Nat
deriving DecidableEq, Repr

/-- `if document_ids and vector_metadata.get("document_id") not in document_ids:
continue` — Python truthiness: `None` and `[]` both disable the filter; a
missing record yields `None`, which is never in a list of ints. -/
def filterDrop (documentIds : Option (List Int)) (md : Option ChunkMeta) : Bool :=
  match documentIds, md with
  | none, _ => false
  | some [], _ => false
  | some (_ :: _), none => true
  | some (d :: ds), some m => decide (m.document_id ∉ d :: ds)

/-- The result dict built for one candidate. -/
def mkSearchHit (idx : Int) (score : Rat) (md : Option ChunkMeta) : SearchHit :=
  { vector_id := idx, score := score,
    document_id := md.map (fun m => m.document_id),
    chunk_index := md.map (fun m => m.chunk_index),
    text := (md.map (fun m => m.text)).getD "",
    document_title := (md.map (fun m => m.document_title)).getD "",
    chunk_length := (md.map (fun m => m.chunk_length)).getD 0 }

/-- The candidate loop of `search_similar_chunks`: skip FAISS's `-1` slots,
apply the document filter, append, break once `top_k` results are collected
(the length check happens after the append, as in the source). -/
def searchLoop (s : IndexerState) (documentIds : Option (List Int)) (topK : Nat) :
    List (Rat × Int) → Nat → List SearchHit
  | [], _ => []
  | (score, idx) :: rest, found =>
    if idx = -1 then searchLoop s documentIds topK rest found
    else if filterDrop documentIds (lookupMeta s idx) then
      searchLoop s documentIds topK rest found
    else if topK ≤ found + 1 then [mkSearchHit idx score (lookupMeta s idx)]
    else mkSearchHit idx score (lookupMeta s idx) ::
      searchLoop s documentIds topK rest (found + 1)

/-- `DocumentIndexer.search_similar_chunks`.  `candidates` abstracts the raw
`(score, index)` pairs returned by `self.index.search(query_embedding,
top_k * 2)` (the embedding model and FAISS being external); the final
`results.sort(key=score, reverse=True)` is Python's stable descending sort,
i.e. `insertionSort` with `b.score ≤ a.score`. -/
def searchSimilarChunks (s : IndexerState) (candidates : List (Rat × Int))
    (topK : Nat) (documentIds : Option (List Int)) : List SearchHit :=
  match s.index with
  | none => []
  | some vs =>
    if vs.length = 0 then []
    else List.insertionSort (fun a b => b.score ≤ a.score)
      (searchLoop s documentIds topK candidates 0)

/-! ### Removal: `DocumentIndexer.remove_document_from_index` -/

/-- `self.index.reconstruct` applied to each id in turn; `none` when any id is
out of range (FAISS raises). -/
def reconstructAll (vs : List (List Int)) : List Nat → Option (List (List Int))
  | [] => some []
  | i :: rest =>
    match vs[i]? with
    | none => none
    | some v => (reconstructAll vs rest).map (fun ws => v :: ws)

/-- The `new_vector_id = 0; new_vector_id += 1` renumbering loop. -/
def renumberFrom (n : Nat) : List ChunkMeta → List (Nat × ChunkMeta)
  | [] => []
  | m :: rest => (n, m) :: renumberFrom (n + 1) rest

/-- `DocumentIndexer.remove_document_from_index`.  Returns the boolean result
and the in-memory state after the call (an exception inside the method is
caught and turned into `False`; if it happens after the index swap the
mutated state survives, exactly as in the source). -/
def removeDocumentFromIndex (saveOk : Bool) (s : IndexerState) (documentId : Int) :
    Bool × IndexerState :=
  match s.index with
  | none => (false, s)
  | some vs =>
    let kept := s.metadata.filter (fun p => decide (p.2.document_id ≠ documentId))
    match reconstructAll vs (kept.map Prod.fst) with
    | none => (false, s)
    | some keepVectors =>
      let s' : IndexerState :=
        if kept = [] then
          { index := some [], metadata := [], dimension := s.dimension }
        else
          { index := some keepVectors,
            metadata := renumberFrom 0 (kept.map Prod.snd),
            dimension := s.dimension }
      if saveOk then (true, s') else (false, s')

/-! ### Stats: `DocumentIndexer.get_index_stats` -/

/-- First occurrences of each element, in order (insertion order of a Python
dict/set build). -/
def firstOccsAux {α : Type} [DecidableEq α] (seen : List α) : List α → List α
  | [] => []
  | x :: xs =>
    if x ∈ seen then firstOccsAux seen xs else x :: firstOccsAux (x :: seen) xs

/-- The distinct elements of a list, in first-occurrence order. -/
def firstOccs {α : Type} [DecidableEq α] (l : List α) : List α := firstOccsAux [] l

/-- The dict returned by `get_index_stats`. -/
structure IndexStats where
  total_vectors : Nat
  dimension : Nat
  documents_count : Nat
  index_size_mb : Nat
deriving DecidableEq, Repr

/-- `DocumentIndexer.get_index_stats`.  `indexFileSizeMB` abstracts the size
of the persisted index file on disk (a filesystem fact, zeroed in the
uninitialized early return exactly as in the source). -/
def getIndexStats (s : IndexerState) (indexFileSizeMB : Nat) : IndexStats :=
  match s.index with
  | none =>
    { total_vectors := 0, dimension := 0, documents_count := 0, index_size_mb := 0 }
  | some vs =>
    { total_vectors := vs.length,
      dimension := s.dimension.getD 0,
      documents_count :=
        (firstOccs (s.metadata.map (fun p => p.2.document_id))).length,
      index_size_mb := indexFileSizeMB }

/-! ### Rebuild: `DocumentIndexer.rebuild_index` -/

/-- Ordering of records by `chunk_index` (`chunks_metadata.sort(key=...)`). -/
def chunkOrder (a b : ChunkMeta) : Prop := a.chunk_index ≤ b.chunk_index

instance : DecidableRel chunkOrder := fun a b => Nat.decLe a.chunk_index b.chunk_index

instance : IsTotal ChunkMeta chunkOrder :=
  ⟨fun a b => Nat.le_total a.chunk_index b.chunk_index⟩

instance : IsTrans ChunkMeta chunkOrder :=
  ⟨fun _ _ _ h h' => Nat.le_trans h h'⟩

/-- One document's group in `rebuild_index`: its records in storage order
(`documents_data[doc_id]`), sorted stably by `chunk_index`. -/
def docGroup (ms : List ChunkMeta) (d : Int) : List ChunkMeta :=
  List.insertionSort chunkOrder (ms.filter (fun m => decide (m.document_id = d)))

/-- The full grouped-and-sorted record sequence `rebuild_index` retains:
document groups in first-occurrence order, each sorted by `chunk_index`. -/
def regrouped (ms : List ChunkMeta) : List ChunkMeta :=
  (firstOccs (ms.map (fun m => m.document_id))).flatMap (docGroup ms)

/-- The vector-collection loop of `rebuild_index`: for each retained record,
scan `self.metadata` for the first structurally equal record to discover its
old id (skipping records with no match, as the source does), and reconstruct
that vector; `none` when a reconstruct raises. -/
def collectRebuild (s : IndexerState) (vs : List (List Int)) :
    List ChunkMeta → Option (List (List Int × ChunkMeta))
  | [] => some []
  | m :: rest =>
    match s.metadata.find? (fun q => decide (q.2 = m)) with
    | none => collectRebuild s vs rest
    | some q =>
      match vs[q.1]? with
      | none => none
      | some v => (collectRebuild s vs rest).map (fun ps => (v, m) :: ps)

/-- `DocumentIndexer.rebuild_index`.  Returns the boolean result and the
in-memory state after the call. -/
def rebuildIndex (saveOk : Bool) (s : IndexerState) : Bool × IndexerState :=
  if s.metadata = [] then (true, s)
  else
    match s.index with
    | none => (false, s)
    | some vs =>
      match collectRebuild s vs (regrouped (metas s)) with
      | none => (false, s)
      | some pairs =>
        if pairs.map Prod.fst = [] then (false, s)
        else
          let s' : IndexerState :=
            { index := some (pairs.map Prod.fst),
              metadata := renumberFrom 0 (pairs.map Prod.snd),
              dimension := s.dimension }
          if saveOk then (true, s') else (false, s')

/-! ### Ranker: `VectorSearchEngine` -/

/-- The `0.3` relevance threshold of `find_relevant_context`. -/
def relevanceThreshold : Rat := mkRat 3 10

/-- `s.lower().split()`: lower-cased whitespace-separated words (modelled for
single-space separation and ASCII lowering; only the word multiset matters to
the callers). -/
def wordsOf (s : String) : List String :=
  ((splitOnChar ' ' s.data).map (fun cs => String.mk (cs.map Char.toLower))).filter
    (fun w => w ≠ "")

/-- `VectorSearchEngine._explain_relevance`.  Python intersects two word sets;
the iteration order of a Python set is unspecified, determinized here as
question-word first-occurrence order (no caller inspects the string). -/
def explainRelevance (question text : String) : String :=
  let commonWords :=
    (firstOccs (wordsOf question)).filter (fun w => (wordsOf text).contains w)
  if 2 < commonWords.length then
    "Содержит ключевые слова: " ++ String.intercalate ", " (commonWords.take 5)
  else "Семантическая близость"

/-- The `try` body of `find_relevant_context`.  `searchE` is
`self.indexer.search_similar_chunks`, which can raise (its own `except`
re-raises); the result pairs each retained chunk with the attached
`relevance_reason`. -/
def findRelevantContextTry
    (searchE : String → Nat → Option (List Int) → Except String (List SearchHit))
    (question : String) (documentIds : Option (List Int)) (maxChunks : Nat) :
    Except String (List (SearchHit × String)) := do
  let similarChunks ← searchE question (maxChunks * 2) documentIds
  let relevantChunks :=
    (similarChunks.filter (fun c => relevanceThreshold < c.score)).take maxChunks
  return relevantChunks.map (fun c => (c, explainRelevance question c.text))

/-- `VectorSearchEngine.find_relevant_context`: the `except Exception` clause
returns `[]`. -/
def findRelevantContext
    (searchE : String → Nat → Option (List Int) → Except String (List SearchHit))
    (question : String) (documentIds : Option (List Int)) (maxChunks : Nat) :
    List (SearchHit × String) :=
  match findRelevantContextTry searchE question documentIds maxChunks with
  | Except.ok r => r
  | Except.error _ => []

/-- The `try` body of `get_document_summary_context`.  `metadataSrc` is the
access to `self.indexer.metadata` (fallible, to model `except Exception`
uniformly).  `max_chunks = 0` with more chunks than that raises
`ZeroDivisionError` on `len(all_chunks) // max_chunks`, as in Python. -/
def getDocumentSummaryContextTry (metadataSrc : Except String (List (Nat × ChunkMeta)))
    (documentId : Int) (maxChunks : Nat) : Except String (List String) := do
  let md ← metadataSrc
  let allChunks :=
    (md.filter (fun p => decide (p.2.document_id = documentId))).map
      (fun p => (p.2.chunk_index, p.2.text))
  let sortedChunks := List.insertionSort (fun a b => a.1 ≤ b.1) allChunks
  if maxChunks < sortedChunks.length then
    if maxChunks = 0 then Except.error "ZeroDivisionError"
    else
      let step := sortedChunks.length / maxChunks
      let selected :=
        (((List.range sortedChunks.length).filter (fun i => decide (i % step = 0))).filterMap
          (fun i => sortedChunks[i]?)).take maxChunks
      return selected.map Prod.snd
  else return sortedChunks.map Prod.snd

/-- `VectorSearchEngine.get_document_summary_context`: the `except Exception`
clause returns `[]`. -/
def getDocumentSummaryContext (metadataSrc : Except String (List (Nat × ChunkMeta)))
    (documentId : Int) (maxChunks : Nat) : List String :=
  match getDocumentSummaryContextTry metadataSrc documentId maxChunks with
  | Except.ok r => r
  | Except.error _ => []

/-- One aggregate of `doc_scores` in `find_similar_documents`. -/
structure DocScore where
  document_id : Option Int
  max_score : Rat
  avg_score : Rat
  chunk_count : Nat
  title : String
deriving DecidableEq, Repr

/-- The running max/avg update for one additional hit of a known document. -/
def bumpDocScore (e : DocScore) (score : Rat) : DocScore :=
  { e with
    max_score := max e.max_score score,
    avg_score := (e.avg_score * (e.chunk_count : Rat) + score) / ((e.chunk_count : Rat) + 1),
    chunk_count := e.chunk_count + 1 }

/-- The per-hit update of the `doc_scores` dict (insertion-ordered association
list); hits of the target document itself are excluded.  A hit whose id was
missing from the metadata contributes under key `none` (Python: `None !=
document_id` is true). -/
def updateDocScores (documentId : Int) (acc : List (Option Int × DocScore))
    (c : SearchHit) : List (Option Int × DocScore) :=
  if c.document_id = some documentId then acc
  else if (acc.find? (fun p => decide (p.1 = c.document_id))).isSome then
    acc.map (fun p =>
      if p.1 = c.document_id then (p.1, bumpDocScore p.2 c.score) else p)
  else
    acc ++ [(c.document_id,
      { document_id := c.document_id, max_score := c.score, avg_score := c.score,
        chunk_count := 1, title := c.document_title })]

/-- The `try` body of `find_similar_documents`: probe text from the target
document's first five fragments, broad search (`top_k * 5`, unfiltered),
aggregation per document, ranking by average score descending. -/
def findSimilarDocumentsTry (s : IndexerState)
    (searchE : String → Nat → Except String (List SearchHit))
    (documentId : Int) (topK : Nat) : Except String (List DocScore) := do
  let targetChunks :=
    (s.metadata.filter (fun p => decide (p.2.document_id = documentId))).map
      (fun p => p.2.text)
  if targetChunks = [] then return []
  let combinedText := String.intercalate " " (targetChunks.take 5)
  let similarChunks ← searchE combinedText (topK * 5)
  let docScores := similarChunks.foldl (updateDocScores documentId) []
  let similarDocs :=
    List.insertionSort (fun a b => b.avg_score ≤ a.avg_score) (docScores.map Prod.snd)
  return similarDocs.take topK

/-- `VectorSearchEngine.find_similar_documents`: the `except Exception` clause
returns `[]`. -/
def findSimilarDocuments (s : IndexerState)
    (searchE : String → Nat → Except String (List SearchHit))
    (documentId : Int) (topK : Nat) : List DocScore :=
  match findSimilarDocumentsTry s searchE documentId topK with
  | Except.ok r => r
  | Except.error _ => []

/-! ### Per-document record sequences and the `chunk_index` invariant -/

/-- The records of document `d`, in storage order. -/
def docRecords (ms : List ChunkMeta) (d : Int) : List ChunkMeta :=
  ms.filter (fun m => decide (m.document_id = d))

/-- The `chunk_index` sequence of document `d`, in storage order. -/
def docIdxs (ms : List ChunkMeta) (d : Int) : List Nat :=
  (docRecords ms d).map (fun m => m.chunk_index)

/-- Spec §3 invariant: within each document present in the store, the
`chunk_index` values in storage order are exactly `0..K-1` (hence strictly
increasing). -/
def chunkInvariant (ms : List ChunkMeta) : Prop :=
  ∀ d ∈ ms.map (fun m => m.document_id),
    docIdxs ms d = List.range (docIdxs ms d).length

instance (ms : List ChunkMeta) : Decidable (chunkInvariant ms) :=
  List.decidableBAll _ _

/-! ### Basic lemmas about the building blocks -/

theorem buildEntries_map_fst (d : Int) (ti : String) (start : Nat) :
    ∀ (l : List String) (i : Nat),
      (buildEntries d ti start i l).map Prod.fst = List.range' (start + i) l.length := by
  intro l
  induction l with
  | nil => intro i; simp [buildEntries]
  | cons c rest ih =>
    intro i
    simp only [buildEntries, List.map_cons, List.length_cons, List.range'_succ, ih,
      Nat.add_assoc]

theorem renumberFrom_map_snd : ∀ (n : Nat) (l : List ChunkMeta),
    (renumberFrom n l).map Prod.snd = l := by
  intro n l
  induction l generalizing n with
  | nil => simp [renumberFrom]
  | cons m rest ih => simp [renumberFrom, ih]

theorem renumberFrom_fst_lt : ∀ (n : Nat) (l : List ChunkMeta) (p : Nat × ChunkMeta),
    p ∈ renumberFrom n l → p.1 < n + l.length := by
  intro n l
  induction l generalizing n with
  | nil => simp [renumberFrom]
  | cons m rest ih =>
    intro p hp
    rcases (by simpa [renumberFrom] using hp : p = (n, m) ∨ p ∈ renumberFrom (n + 1) rest) with
      h | h
    · subst h; simp
    · have := ih (n + 1) p h
      simp only [List.length_cons]
      omega

theorem renumberFrom_length (n : Nat) (l : List ChunkMeta) :
    (renumberFrom n l).length = l.length := by
  have := congrArg List.length (renumberFrom_map_snd n l)
  simpa using this

theorem reconstructAll_ok (vs : List (List Int)) :
    ∀ (ids : List Nat), (∀ i ∈ ids, i < vs.length) →
      ∃ ws, reconstructAll vs ids = some ws ∧ ws.length = ids.length := by
  intro ids
  induction ids with
  | nil => exact fun _ => ⟨[], rfl, rfl⟩
  | cons i rest ih =>
    intro h
    have hi : i < vs.length := h i (by simp)
    obtain ⟨ws, hws, hlen⟩ := ih (fun j hj => h j (by simp [hj]))
    refine ⟨vs[i] :: ws, ?_, by simp [hlen]⟩
    simp [reconstructAll, List.getElem?_eq_getElem hi, hws]

theorem map_snd_filter_snd (l : List (Nat × ChunkMeta)) (p : ChunkMeta → Bool) :
    (l.filter (fun q => p q.2)).map Prod.snd = (l.map Prod.snd).filter p := by
  induction l with
  | nil => rfl
  | cons q rest ih =>
    by_cases h : p q.2 <;> simp [List.filter_cons, h, ih]

theorem lookupMeta_mem {s : IndexerState} {idx : Int} {m : ChunkMeta}
    (h : lookupMeta s idx = some m) : m ∈ metas s := by
  unfold lookupMeta at h
  obtain ⟨p, hp, hpm⟩ := Option.map_eq_some'.mp h
  exact hpm ▸ List.mem_map_of_mem Prod.snd (List.mem_of_find?_eq_some hp)

/-! ### C1 — persistence failure during `add_document` -/

/-- C1 (amended): when `_save_index` fails in `add_document_to_index` (and
chunking produced fragments, so the persistence step is reached), the
exception is propagated to the caller, but the in-memory state is NOT rolled
back: it is exactly the state a successful call would have produced, with the
new vectors and metadata entries retained. -/
theorem add_document_save_failure (embed : String → List Int) (csArg ovArg : Nat)
    (s : IndexerState) (d : Int) (t ti : String)
    (h : chunkText t csArg ovArg ≠ []) :
    (addDocumentToIndex embed csArg ovArg false s d t ti).1 = Except.error "save failed" ∧
    (addDocumentToIndex embed csArg ovArg false s d t ti).2 =
      (addDocumentToIndex embed csArg ovArg true s d t ti).2 ∧
    totalVectors (addDocumentToIndex embed csArg ovArg false s d t ti).2 =
      totalVectors s + (chunkText t csArg ovArg).length := by
  refine ⟨?_, ?_, ?_⟩
  · simp [addDocumentToIndex, h]
  · simp [addDocumentToIndex, h]
  · cases hidx : s.index <;>
      simp [addDocumentToIndex, h, totalVectors, hidx]

/-- C1 counterexample to the claim as stated: a save failure propagates the
error, yet the manager's state differs from the state before the call (the
added vector and metadata entry are retained in memory). -/
theorem add_document_save_failure_cex :
    (addDocumentToIndex (fun _ => [1]) 0 0 false emptyIndexerState 1 "hello" "t").1 =
      Except.error "save failed" ∧
    (addDocumentToIndex (fun _ => [1]) 0 0 false emptyIndexerState 1 "hello" "t").2 ≠
      emptyIndexerState :=
  ⟨rfl, by decide⟩

theorem add_document_save_failure_witness :
    (addDocumentToIndex (fun _ => [2]) 0 0 false emptyIndexerState 4 "hi" "w").1 =
      Except.error "save failed" ∧
    (addDocumentToIndex (fun _ => [2]) 0 0 false emptyIndexerState 4 "hi" "w").2 =
      (addDocumentToIndex (fun _ => [2]) 0 0 true emptyIndexerState 4 "hi" "w").2 ∧
    totalVectors (addDocumentToIndex (fun _ => [2]) 0 0 false emptyIndexerState 4 "hi" "w").2 =
      totalVectors emptyIndexerState + (chunkText "hi" 0 0).length :=
  add_document_save_failure (fun _ => [2]) 0 0 emptyIndexerState 4 "hi" "w" (by decide)

/-! ### C7 — contiguous id assignment -/

/-- C7: whenever `add_document_to_index` returns normally, the returned vector
ids are exactly the contiguous range `[N, N + n)` where `N` is the index size
before the call and `n` the fragment count, and there is one id per
fragment. -/
theorem add_document_contiguous_ids (embed : String → List Int) (csArg ovArg : Nat)
    (saveOk : Bool) (s : IndexerState) (d : Int) (t ti : String) (ids : List Nat)
    (h : (addDocumentToIndex embed csArg ovArg saveOk s d t ti).1 = Except.ok ids) :
    ids = List.range' (totalVectors s) (chunkText t csArg ovArg).length ∧
    ids.length = (chunkText t csArg ovArg).length := by
  by_cases hc : chunkText t csArg ovArg = []
  · simp [addDocumentToIndex, hc] at h
    simp [hc, ← h]
  · cases saveOk with
    | false => simp [addDocumentToIndex, hc] at h
    | true =>
      cases hidx : s.index with
      | none =>
        simp [addDocumentToIndex, hc, hidx] at h
        rw [buildEntries_map_fst] at h
        refine ⟨?_, ?_⟩ <;> rw [← h] <;> simp [totalVectors, hidx]
      | some vs =>
        simp [addDocumentToIndex, hc, hidx] at h
        rw [buildEntries_map_fst] at h
        refine ⟨?_, ?_⟩ <;> rw [← h] <;> simp [totalVectors, hidx]

theorem add_document_contiguous_ids_witness :
    [0] = List.range' (totalVectors emptyIndexerState) (chunkText "hey" 0 0).length ∧
    ([0] : List Nat).length = (chunkText "hey" 0 0).length :=
  add_document_contiguous_ids (fun _ => [3]) 0 0 true emptyIndexerState 9 "hey" "w" [0]
    (by rfl)

/-! ### C8 — removal success regardless of matches -/

/-- A small populated, well-formed state used as a concrete instance. -/
def sampleState : IndexerState :=
  ⟨some [[5]], [(0, ⟨7, 0, "x", "t", 1⟩)], some 1⟩

/-- C8 (amended): on an initialized index whose metadata ids are all
reconstructable, `remove_document_from_index` runs the compaction and reports
success whether or not any record matches the document id; but on an
UNINITIALIZED index it returns failure (`False`) without compacting, contrary
to the claim's "for every state". -/
theorem remove_document_reports_success :
    (∀ (s : IndexerState) (d : Int), s.index = none →
      removeDocumentFromIndex true s d = (false, s)) ∧
    (∀ (s : IndexerState) (vs : List (List Int)) (d : Int), s.index = some vs →
      (∀ p ∈ s.metadata, p.1 < vs.length) →
      (removeDocumentFromIndex true s d).1 = true) := by
  constructor
  · intro s d h
    simp [removeDocumentFromIndex, h]
  · intro s vs d h hb
    have hk : ∀ i ∈ (s.metadata.filter
        (fun p => decide (p.2.document_id ≠ d))).map Prod.fst, i < vs.length := by
      intro i hi
      obtain ⟨p, hp, rfl⟩ := List.mem_map.mp hi
      exact hb p (List.mem_of_mem_filter hp)
    obtain ⟨ws, hws, _⟩ := reconstructAll_ok vs _ hk
    simp only [removeDocumentFromIndex, h]
    rw [hws]
    simp

/-- C8 counterexample to the claim as stated: on a fresh manager (no index
initialized, so in particular no record matches), removal reports failure,
not success. -/
theorem remove_document_reports_success_cex :
    removeDocumentFromIndex true emptyIndexerState 5 = (false, emptyIndexerState) ∧
    (metas emptyIndexerState).filter (fun m => decide (m.document_id = 5)) = [] := by
  decide

theorem remove_document_reports_success_witness :
    removeDocumentFromIndex true emptyIndexerState 3 = (false, emptyIndexerState) ∧
    (removeDocumentFromIndex true sampleState 3).1 = true :=
  ⟨remove_document_reports_success.1 emptyIndexerState 3 rfl,
   remove_document_reports_success.2 sampleState [[5]] 3 rfl (by decide)⟩

/-! ### C9 — reads on an empty or uninitialized index -/

/-- C9 (amended): `search_similar_chunks` returns `[]` (never raises) whenever
the index is uninitialized or empty; `get_index_stats` never raises and
returns the all-zero record for an UNINITIALIZED index, and a record with
`total_vectors = 0` for an initialized empty index — but in the latter case
`dimension` keeps the established dimension, so the record need not be
all-zero. -/
theorem empty_index_reads :
    (∀ (s : IndexerState) (cands : List (Rat × Int)) (k : Nat)
        (df : Option (List Int)), s.index = none →
      searchSimilarChunks s cands k df = []) ∧
    (∀ (s : IndexerState) (cands : List (Rat × Int)) (k : Nat)
        (df : Option (List Int)), s.index = some [] →
      searchSimilarChunks s cands k df = []) ∧
    (∀ (s : IndexerState) (f : Nat), s.index = none →
      getIndexStats s f = ⟨0, 0, 0, 0⟩) ∧
    (∀ (s : IndexerState) (f : Nat), s.index = some [] →
      (getIndexStats s f).total_vectors = 0) := by
  refine ⟨?_, ?_, ?_, ?_⟩ <;> intro s
  · intro cands k df h; simp [searchSimilarChunks, h]
  · intro cands k df h; simp [searchSimilarChunks, h]
  · intro f h; simp [getIndexStats, h]
  · intro f h; simp [getIndexStats, h]

/-- C9 counterexample to the claim as stated: a reachable state (add one
document, then remove it) has an initialized empty index; `search` does
return `[]`, but `get_index_stats` is not all-zero — `dimension` remains 4. -/
theorem empty_index_reads_cex :
    ((removeDocumentFromIndex true
        (addDocumentToIndex (fun _ => [1, 2, 3, 4]) 0 0 true emptyIndexerState
          1 "hi" "t").2 1).2.index = some []) ∧
    (getIndexStats (removeDocumentFromIndex true
        (addDocumentToIndex (fun _ => [1, 2, 3, 4]) 0 0 true emptyIndexerState
          1 "hi" "t").2 1).2 0).dimension = 4 := by
  decide

theorem empty_index_reads_witness :
    searchSimilarChunks emptyIndexerState [(1, 0)] 5 none = [] ∧
    searchSimilarChunks ⟨some [], [], some 4⟩ [(1, 0)] 5 none = [] ∧
    getIndexStats emptyIndexerState 7 = ⟨0, 0, 0, 0⟩ ∧
    (getIndexStats ⟨some [], [], some 4⟩ 7).total_vectors = 0 :=
  ⟨empty_index_reads.1 emptyIndexerState [(1, 0)] 5 none rfl,
   empty_index_reads.2.1 ⟨some [], [], some 4⟩ [(1, 0)] 5 none rfl,
   empty_index_reads.2.2.1 emptyIndexerState 7 rfl,
   empty_index_reads.2.2.2 ⟨some [], [], some 4⟩ 7 rfl⟩

/-! ### C10 — the ranker swallows internal errors -/

/-- C10: each consumer-facing `VectorSearchEngine` operation returns `[]`
whenever its body raises (the `except Exception` clause): no internal error
from embedding, index search or metadata access propagates to the caller. -/
theorem ranker_swallows_errors :
    (∀ (searchE : String → Nat → Option (List Int) → Except String (List SearchHit))
        (q : String) (dIds : Option (List Int)) (mc : Nat) (e : String),
      findRelevantContextTry searchE q dIds mc = Except.error e →
      findRelevantContext searchE q dIds mc = []) ∧
    (∀ (msrc : Except String (List (Nat × ChunkMeta))) (d : Int) (mc : Nat) (e : String),
      getDocumentSummaryContextTry msrc d mc = Except.error e →
      getDocumentSummaryContext msrc d mc = []) ∧
    (∀ (s : IndexerState) (searchE : String → Nat → Except String (List SearchHit))
        (d : Int) (k : Nat) (e : String),
      findSimilarDocumentsTry s searchE d k = Except.error e →
      findSimilarDocuments s searchE d k = []) := by
  refine ⟨?_, ?_, ?_⟩
  · intro searchE q dIds mc e h
    simp [findRelevantContext, h]
  · intro msrc d mc e h
    simp [getDocumentSummaryContext, h]
  · intro s searchE d k e h
    simp [findSimilarDocuments, h]

theorem ranker_swallows_errors_witness :
    findRelevantContext (fun _ _ _ => Except.error "boom") "q" none 2 = [] ∧
    getDocumentSummaryContext (Except.error "boom") 1 3 = [] ∧
    findSimilarDocuments sampleState (fun _ _ => Except.error "boom") 7 3 = [] :=
  ⟨ranker_swallows_errors.1 (fun _ _ _ => Except.error "boom") "q" none 2 "boom" rfl,
   ranker_swallows_errors.2.1 (Except.error "boom") 1 3 "boom" rfl,
   ranker_swallows_errors.2.2 sampleState (fun _ _ => Except.error "boom") 7 3 "boom" rfl⟩

/-! ### Search membership lemmas -/

theorem searchLoop_mem {s : IndexerState} {df : Option (List Int)} {topK : Nat} :
    ∀ (cands : List (Rat × Int)) (found : Nat) (r : SearchHit),
      r ∈ searchLoop s df topK cands found →
      ∃ sc idx, (sc, idx) ∈ cands ∧ idx ≠ -1 ∧
        filterDrop df (lookupMeta s idx) = false ∧
        r = mkSearchHit idx sc (lookupMeta s idx) := by
  intro cands
  induction cands with
  | nil => intro found r h; simp [searchLoop] at h
  | cons c rest ih =>
    intro found r h
    obtain ⟨sc, idx⟩ := c
    by_cases h1 : idx = -1
    · rw [searchLoop, if_pos h1] at h
      obtain ⟨sc', idx', hm, hne, hdrop, hr⟩ := ih found r h
      exact ⟨sc', idx', List.mem_cons_of_mem _ hm, hne, hdrop, hr⟩
    · rw [searchLoop, if_neg h1] at h
      by_cases h2 : filterDrop df (lookupMeta s idx) = true
      · rw [if_pos h2] at h
        obtain ⟨sc', idx', hm, hne, hdrop, hr⟩ := ih found r h
        exact ⟨sc', idx', List.mem_cons_of_mem _ hm, hne, hdrop, hr⟩
      · rw [if_neg h2] at h
        by_cases h3 : topK ≤ found + 1
        · rw [if_pos h3] at h
          obtain rfl : r = mkSearchHit idx sc (lookupMeta s idx) := by simpa using h
          exact ⟨sc, idx, by simp, h1, by simpa using h2, rfl⟩
        · rw [if_neg h3] at h
          rcases List.mem_cons.mp h with hr | hr
          · exact ⟨sc, idx, by simp, h1, by simpa using h2, hr⟩
          · obtain ⟨sc', idx', hm, hne, hdrop, hr'⟩ := ih (found + 1) r hr
            exact ⟨sc', idx', List.mem_cons_of_mem _ hm, hne, hdrop, hr'⟩

theorem searchSimilarChunks_mem {s : IndexerState} {cands : List (Rat × Int)}
    {topK : Nat} {df : Option (List Int)} {r : SearchHit}
    (h : r ∈ searchSimilarChunks s cands topK df) :
    ∃ sc idx, (sc, idx) ∈ cands ∧ idx ≠ -1 ∧
      filterDrop df (lookupMeta s idx) = false ∧
      r = mkSearchHit idx sc (lookupMeta s idx) := by
  cases hidx : s.index with
  | none => simp only [searchSimilarChunks, hidx] at h; simp at h
  | some vs =>
    simp only [searchSimilarChunks, hidx] at h
    by_cases hlen : vs.length = 0
    · rw [if_pos hlen] at h; simp at h
    · rw [if_neg hlen] at h
      exact searchLoop_mem cands 0 r (List.mem_insertionSort _ |>.mp h)

/-! ### C3 — the document filter -/

/-- C3 (amended): for a NON-EMPTY filter set, every candidate whose id is
missing from the metadata store is dropped, and every returned result's
`document_id` belongs to the filter set.  (For the empty filter set the claim
fails: Python's `if document_ids and ...` treats `[]` as falsy and disables
the filter entirely — see the counterexample.) -/
theorem search_document_filter (s : IndexerState) (cands : List (Rat × Int))
    (topK : Nat) (d0 : Int) (ds : List Int) :
    ∀ r ∈ searchSimilarChunks s cands topK (some (d0 :: ds)),
      ∃ m, lookupMeta s r.vector_id = some m ∧ m.document_id ∈ d0 :: ds ∧
        r.document_id = some m.document_id := by
  intro r hr
  obtain ⟨sc, idx, _, _, hdrop, rfl⟩ := searchSimilarChunks_mem hr
  cases hmd : lookupMeta s idx with
  | none => rw [hmd] at hdrop; simp [filterDrop] at hdrop
  | some m =>
    rw [hmd] at hdrop
    refine ⟨m, ?_, ?_, ?_⟩
    · simpa [mkSearchHit] using hmd
    · have h' : decide (m.document_id ∉ d0 :: ds) = false := hdrop
      exact not_not.mp (of_decide_eq_false h')
    · simp [mkSearchHit, hmd]

/-- C3 counterexample to the claim as stated, at the empty filter set: a
search with `document_filter = []` returns a result whose `document_id` (7)
is not in the empty set — the filter is silently ignored. -/
theorem search_document_filter_cex :
    (searchSimilarChunks sampleState [(1, 0)] 5 (some [])).map
      (fun r => r.document_id) = [some 7] := by decide

theorem search_document_filter_witness :
    ∃ m, lookupMeta sampleState (0 : Int) = some m ∧ m.document_id ∈ [7] ∧
      (some 7 : Option Int) = some m.document_id :=
  search_document_filter sampleState [(1, 0)] 5 7 []
    ⟨0, 1, some 7, some 0, "x", "t", 1⟩ (by decide)

/-! ### C2 — removal removes exactly one document's vectors -/

theorem length_filter_eq_add_ne (ms : List ChunkMeta) (d : Int) :
    ((ms.filter (fun m => decide (m.document_id = d))).length +
      (ms.filter (fun m => decide (m.document_id ≠ d))).length) = ms.length := by
  induction ms with
  | nil => rfl
  | cons m rest ih =>
    by_cases h : m.document_id = d <;> simp [List.filter_cons, h, ← ih] <;> omega

/-- C2: from a well-formed state (metadata ids are exactly the index's id
range), `remove_document_from_index(d)` succeeds; the total vector count
drops by exactly document `d`'s prior record count; and no subsequent search
(any candidates, any `k`, any filter) returns a result with
`document_id = d`. -/
theorem remove_document_clean (s : IndexerState) (vs : List (List Int)) (d : Int)
    (hidx : s.index = some vs)
    (hids : s.metadata.map Prod.fst = List.range vs.length) :
    (removeDocumentFromIndex true s d).1 = true ∧
    (getIndexStats (removeDocumentFromIndex true s d).2 0).total_vectors +
      (docRecords (metas s) d).length = (getIndexStats s 0).total_vectors ∧
    (∀ (cands : List (Rat × Int)) (topK : Nat) (df : Option (List Int))
        (r : SearchHit),
      r ∈ searchSimilarChunks (removeDocumentFromIndex true s d).2 cands topK df →
      r.document_id ≠ some d) := by
  have hb : ∀ p ∈ s.metadata, p.1 < vs.length := by
    intro p hp
    have hm : p.1 ∈ s.metadata.map Prod.fst := List.mem_map_of_mem _ hp
    rw [hids] at hm
    exact List.mem_range.mp hm
  have hk : ∀ i ∈ (s.metadata.filter
      (fun p => decide (p.2.document_id ≠ d))).map Prod.fst, i < vs.length := by
    intro i hi
    obtain ⟨p, hp, rfl⟩ := List.mem_map.mp hi
    exact hb p (List.mem_of_mem_filter hp)
  obtain ⟨ws, hws, hwlen⟩ := reconstructAll_ok vs _ hk
  have hres : removeDocumentFromIndex true s d =
      (true,
        if s.metadata.filter (fun p => decide (p.2.document_id ≠ d)) = [] then
          ⟨some [], [], s.dimension⟩
        else
          ⟨some ws,
            renumberFrom 0 ((s.metadata.filter
              (fun p => decide (p.2.document_id ≠ d))).map Prod.snd),
            s.dimension⟩) := by
    simp only [removeDocumentFromIndex, hidx]
    rw [hws]
    rfl
  have hms : (metas s).filter (fun m => decide (m.document_id ≠ d)) =
      (s.metadata.filter (fun p => decide (p.2.document_id ≠ d))).map Prod.snd :=
    (map_snd_filter_snd s.metadata _).symm
  have hmetas : metas (removeDocumentFromIndex true s d).2 =
      (metas s).filter (fun m => decide (m.document_id ≠ d)) := by
    rw [hres, hms]
    by_cases hke : s.metadata.filter (fun p => decide (p.2.document_id ≠ d)) = []
    · rw [if_pos hke, hke]
      rfl
    · rw [if_neg hke]
      exact renumberFrom_map_snd 0 _
  have hmlen : (metas s).length = vs.length := by
    have := congrArg List.length hids
    simpa [metas] using this
  refine ⟨by rw [hres], ?_, ?_⟩
  · have htotal : (getIndexStats (removeDocumentFromIndex true s d).2 0).total_vectors =
        ((metas s).filter (fun m => decide (m.document_id ≠ d))).length := by
      rw [hres, hms]
      by_cases hke : s.metadata.filter (fun p => decide (p.2.document_id ≠ d)) = []
      · rw [if_pos hke, hke]
        rfl
      · rw [if_neg hke]
        show ws.length = _
        rw [hwlen]
        simp
    rw [htotal]
    have hsplit := length_filter_eq_add_ne (metas s) d
    have hstats : (getIndexStats s 0).total_vectors = vs.length := by
      simp [getIndexStats, hidx]
    rw [hstats]
    unfold docRecords
    omega
  · intro cands topK df r hr
    obtain ⟨sc, idx, _, _, _, rfl⟩ := searchSimilarChunks_mem hr
    cases hmd : lookupMeta (removeDocumentFromIndex true s d).2 idx with
    | none => simp [mkSearchHit, hmd]
    | some m =>
      have hmem : m ∈ metas (removeDocumentFromIndex true s d).2 := lookupMeta_mem hmd
      rw [hmetas] at hmem
      have hne : m.document_id ≠ d := by
        have := List.of_mem_filter hmem
        simpa using this
      simp [mkSearchHit, hmd, hne]

/-- A well-formed two-document state used as a concrete instance. -/
def sampleStateTwo : IndexerState :=
  ⟨some [[1], [2]], [(0, ⟨1, 0, "a", "t", 1⟩), (1, ⟨2, 0, "b", "t", 1⟩)], some 1⟩

theorem remove_document_clean_witness :
    (removeDocumentFromIndex true sampleStateTwo 1).1 = true ∧
    (getIndexStats (removeDocumentFromIndex true sampleStateTwo 1).2 0).total_vectors +
      (docRecords (metas sampleStateTwo) 1).length =
      (getIndexStats sampleStateTwo 0).total_vectors ∧
    (⟨0, 1, some 2, some 0, "b", "t", 1⟩ : SearchHit).document_id ≠ some 1 := by
  obtain ⟨h1, h2, h3⟩ := remove_document_clean sampleStateTwo [[1], [2]] 1 rfl (by decide)
  exact ⟨h1, h2, h3 [(1, 0)] 5 none ⟨0, 1, some 2, some 0, "b", "t", 1⟩ (by decide)⟩

/-! ### C4 — chunking coverage and size -/

theorem sumLen_append (l : List String) (s : String) :
    sumLen (l ++ [s]) = sumLen l + s.length := by
  simp [sumLen]

/-- Every non-empty input sentence survives, in order, into the concatenation
of the produced groups (overlap seeding can only repeat sentences, never drop
them). -/
theorem chunkGroupsLoop_flatten_sublist (cs ov : Nat) :
    ∀ (ss cur : List String) (curLen : Nat),
      List.Sublist (cur ++ ss.filter (fun s => s ≠ ""))
        (chunkGroupsLoop cs ov ss cur curLen).flatten := by
  intro ss
  induction ss with
  | nil =>
    intro cur curLen
    by_cases hc : cur = [] <;> simp [chunkGroupsLoop, hc]
  | cons s rest ih =>
    intro cur curLen
    rw [chunkGroupsLoop]
    by_cases h0 : s = ""
    · rw [if_pos h0]
      have h := ih cur curLen
      simpa [List.filter_cons, h0] using h
    · rw [if_neg h0]
      by_cases h1 : cs < curLen + s.length ∧ cur ≠ []
      · rw [if_pos h1]
        by_cases h2 : 0 < ov ∧ 1 < cur.length
        · rw [if_pos h2]
          have hih := ih (cur.drop (cur.length - ov) ++ [s])
            (sumLen (cur.drop (cur.length - ov) ++ [s]))
          have h3 : List.Sublist (s :: rest.filter (fun x => x ≠ ""))
              ((cur.drop (cur.length - ov) ++ [s]) ++ rest.filter (fun x => x ≠ "")) := by
            rw [List.append_assoc]
            exact List.sublist_append_right _ _
          have h4 := h3.trans hih
          simpa [List.filter_cons, h0] using h4.append_left cur
        · rw [if_neg h2]
          have hih := ih [s] s.length
          have h4 : List.Sublist (s :: rest.filter (fun x => x ≠ ""))
              (chunkGroupsLoop cs ov rest [s] s.length).flatten := by
            simpa using hih
          simpa [List.filter_cons, h0] using h4.append_left cur
      · rw [if_neg h1]
        have hih := ih (cur ++ [s]) (curLen + s.length)
        simpa [List.filter_cons, h0, List.append_assoc] using hih

/-- Every produced group is non-empty and either fits the character budget
(ignoring join separators) or was capped by overlap seeding: at most
`overlap + 1` sentences. -/
theorem chunkGroupsLoop_bound (cs ov : Nat) :
    ∀ (ss cur : List String) (curLen : Nat),
      curLen = sumLen cur →
      (cur = [] ∨ sumLen cur ≤ cs ∨ cur.length ≤ ov + 1) →
      ∀ g ∈ chunkGroupsLoop cs ov ss cur curLen,
        g ≠ [] ∧ (sumLen g ≤ cs ∨ g.length ≤ ov + 1) := by
  intro ss
  induction ss with
  | nil =>
    intro cur curLen hlen hinv g hg
    by_cases hc : cur = []
    · simp [chunkGroupsLoop, hc] at hg
    · simp [chunkGroupsLoop, hc] at hg
      subst hg
      exact ⟨hc, hinv.resolve_left hc⟩
  | cons s rest ih =>
    intro cur curLen hlen hinv g hg
    rw [chunkGroupsLoop] at hg
    by_cases h0 : s = ""
    · rw [if_pos h0] at hg
      exact ih cur curLen hlen hinv g hg
    · rw [if_neg h0] at hg
      by_cases h1 : cs < curLen + s.length ∧ cur ≠ []
      · rw [if_pos h1] at hg
        rcases List.mem_cons.mp hg with rfl | hg'
        · exact ⟨h1.2, hinv.resolve_left h1.2⟩
        · by_cases h2 : 0 < ov ∧ 1 < cur.length
          · rw [if_pos h2] at hg'
            refine ih _ _ rfl (Or.inr (Or.inr ?_)) g hg'
            simp only [List.length_append, List.length_drop, List.length_cons,
              List.length_nil]
            omega
          · rw [if_neg h2] at hg'
            refine ih [s] s.length (by simp [sumLen]) (Or.inr (Or.inr (by simp))) g hg'
      · rw [if_neg h1] at hg
        refine ih (cur ++ [s]) (curLen + s.length) (by rw [sumLen_append, hlen]) ?_ g hg
        by_cases hc : cur = []
        · exact Or.inr (Or.inr (by simp [hc]))
        · have hle : curLen + s.length ≤ cs := by
            rcases not_and_or.mp h1 with h | h
            · omega
            · exact absurd hc (not_not.mp h ▸ fun hne => hne rfl)
          exact Or.inr (Or.inl (by rw [sumLen_append, ← hlen]; exact hle))

/-- Every sentence inside a produced group comes from the accumulator or from
the non-empty input sentences. -/
theorem chunkGroupsLoop_mem_subset (cs ov : Nat) :
    ∀ (ss cur : List String) (curLen : Nat) (g : List String),
      g ∈ chunkGroupsLoop cs ov ss cur curLen →
      ∀ x ∈ g, x ∈ cur ∨ x ∈ ss.filter (fun s => s ≠ "") := by
  intro ss
  induction ss with
  | nil =>
    intro cur curLen g hg x hx
    by_cases hc : cur = []
    · simp [chunkGroupsLoop, hc] at hg
    · simp [chunkGroupsLoop, hc] at hg
      exact Or.inl (hg ▸ hx)
  | cons s rest ih =>
    intro cur curLen g hg x hx
    rw [chunkGroupsLoop] at hg
    by_cases h0 : s = ""
    · rw [if_pos h0] at hg
      rcases ih cur curLen g hg x hx with h | h
      · exact Or.inl h
      · exact Or.inr (by simpa [List.filter_cons, h0] using h)
    · rw [if_neg h0] at hg
      have hmemr : ∀ y, y ∈ rest.filter (fun t => t ≠ "") →
          y ∈ (s :: rest).filter (fun t => t ≠ "") := by
        intro y hy
        simp only [List.filter_cons]
        rw [if_pos (by simpa using h0)]
        exact List.mem_cons_of_mem _ hy
      have hs : s ∈ (s :: rest).filter (fun t => t ≠ "") := by
        simp only [List.filter_cons]
        rw [if_pos (by simpa using h0)]
        exact List.mem_cons_self _ _
      by_cases h1 : cs < curLen + s.length ∧ cur ≠ []
      · rw [if_pos h1] at hg
        rcases List.mem_cons.mp hg with rfl | hg'
        · exact Or.inl hx
        · by_cases h2 : 0 < ov ∧ 1 < cur.length
          · rw [if_pos h2] at hg'
            rcases ih _ _ g hg' x hx with h | h
            · rcases List.mem_append.mp h with h' | h'
              · exact Or.inl ((List.drop_sublist _ _).subset h')
              · rw [List.mem_singleton.mp h']
                exact Or.inr hs
            · exact Or.inr (hmemr x h)
          · rw [if_neg h2] at hg'
            rcases ih [s] s.length g hg' x hx with h | h
            · rw [List.mem_singleton.mp h]
              exact Or.inr hs
            · exact Or.inr (hmemr x h)
      · rw [if_neg h1] at hg
        rcases ih (cur ++ [s]) (curLen + s.length) g hg x hx with h | h
        · rcases List.mem_append.mp h with h' | h'
          · exact Or.inl h'
          · rw [List.mem_singleton.mp h']
            exact Or.inr hs
        · exact Or.inr (hmemr x h)

/-- C4 (amended): the fragments are the joins of the sentence groups; no
sentence is lost — the original non-empty sentence sequence is an in-order
subsequence of the groups' concatenation (with `overlap` always effective,
boundary sentences may be REPEATED, so exact reproduction fails); every group
is non-empty, drawn from the text's non-empty sentences, and either its raw
sentence lengths total at most `max_size` or it has at most `overlap + 1`
sentences (a single oversized sentence, or an overlap-seeded run).  The
fragment string itself additionally carries `'. '` separators and a final
`'.'`, so it may exceed `max_size` even when the raw lengths fit. -/
theorem chunk_text_coverage (text : String) (csArg ovArg : Nat) :
    chunkText text csArg ovArg = (chunkGroups text csArg ovArg).map joinChunk ∧
    List.Sublist (nonEmptySentences text) (chunkGroups text csArg ovArg).flatten ∧
    (∀ g ∈ chunkGroups text csArg ovArg,
      g ≠ [] ∧
      (sumLen g ≤ (if csArg = 0 then 512 else csArg) ∨
        g.length ≤ (if ovArg = 0 then 50 else ovArg) + 1) ∧
      ∀ x ∈ g, x ∈ nonEmptySentences text) := by
  refine ⟨rfl, ?_, ?_⟩
  · have h := chunkGroupsLoop_flatten_sublist (if csArg = 0 then 512 else csArg)
      (if ovArg = 0 then 50 else ovArg)
      ((splitOnChar '.' text.data).map (fun cs => String.mk (stripChars cs))) [] 0
    simpa [chunkGroups, nonEmptySentences] using h
  · intro g hg
    have hb := chunkGroupsLoop_bound (if csArg = 0 then 512 else csArg)
      (if ovArg = 0 then 50 else ovArg)
      ((splitOnChar '.' text.data).map (fun cs => String.mk (stripChars cs))) [] 0
      (by simp [sumLen]) (Or.inl rfl) g hg
    refine ⟨hb.1, hb.2, ?_⟩
    intro x hx
    have hm := chunkGroupsLoop_mem_subset (if csArg = 0 then 512 else csArg)
      (if ovArg = 0 then 50 else ovArg)
      ((splitOnChar '.' text.data).map (fun cs => String.mk (stripChars cs))) [] 0
      g hg x hx
    simpa [nonEmptySentences] using hm

/-- C4 counterexample to the claim as stated: (i) `"aaaa. bbbb"` with
`max_size = 10` yields the single fragment `"aaaa. bbbb."` of length 11 > 10
although every sentence has length 4 — the `'. '` separator and final `'.'`
are not counted by the size check; (ii) with overlap, the groups'
concatenation repeats the boundary sentence, so it does not reproduce the
original sentence sequence. -/
theorem chunk_text_coverage_cex :
    chunkText "aaaa. bbbb" 10 1 = ["aaaa. bbbb."] ∧
    (∀ s ∈ nonEmptySentences "aaaa. bbbb", s.length ≤ 10) ∧
    10 < ("aaaa. bbbb." : String).length ∧
    (chunkGroups "aa. bb. cc" 4 1).flatten ≠ nonEmptySentences "aa. bb. cc" := by
  refine ⟨by decide, by decide, by decide, by decide⟩

theorem chunk_text_coverage_witness :
    chunkText "aa. bb" 0 0 = (chunkGroups "aa. bb" 0 0).map joinChunk ∧
    List.Sublist (nonEmptySentences "aa. bb") (chunkGroups "aa. bb" 0 0).flatten ∧
    ((["aa", "bb"] : List String) ≠ [] ∧
      (sumLen ["aa", "bb"] ≤ 512 ∨ (["aa", "bb"] : List String).length ≤ 50 + 1) ∧
      ∀ x ∈ (["aa", "bb"] : List String), x ∈ nonEmptySentences "aa. bb") := by
  obtain ⟨h1, h2, h3⟩ := chunk_text_coverage "aa. bb" 0 0
  exact ⟨h1, h2, h3 ["aa", "bb"] (by decide)⟩

/-! ### First-occurrence and grouping lemmas (for C5 / C6) -/

theorem mem_firstOccsAux {α : Type} [DecidableEq α] :
    ∀ (l seen : List α) (x : α),
      x ∈ firstOccsAux seen l ↔ x ∈ l ∧ x ∉ seen := by
  intro l
  induction l with
  | nil => intro seen x; simp [firstOccsAux]
  | cons y ys ih =>
    intro seen x
    by_cases hy : y ∈ seen
    · rw [firstOccsAux, if_pos hy, ih]
      constructor
      · rintro ⟨h1, h2⟩
        exact ⟨List.mem_cons_of_mem _ h1, h2⟩
      · rintro ⟨h1, h2⟩
        rcases List.mem_cons.mp h1 with rfl | h1
        · exact absurd hy h2
        · exact ⟨h1, h2⟩
    · rw [firstOccsAux, if_neg hy]
      constructor
      · intro h
        rcases List.mem_cons.mp h with rfl | h
        · exact ⟨List.mem_cons_self _ _, hy⟩
        · obtain ⟨h1, h2⟩ := (ih (y :: seen) x).mp h
          exact ⟨List.mem_cons_of_mem _ h1,
            fun hs => h2 (List.mem_cons_of_mem _ hs)⟩
      · rintro ⟨h1, h2⟩
        rcases List.mem_cons.mp h1 with rfl | h1
        · exact List.mem_cons_self _ _
        · by_cases hxy : x = y
          · subst hxy
            exact List.mem_cons_self _ _
          · exact List.mem_cons_of_mem _
              ((ih (y :: seen) x).mpr ⟨h1, by simp [hxy, h2]⟩)

theorem mem_firstOccs {α : Type} [DecidableEq α] (l : List α) (x : α) :
    x ∈ firstOccs l ↔ x ∈ l := by
  rw [firstOccs, mem_firstOccsAux]
  simp

theorem firstOccsAux_nodup {α : Type} [DecidableEq α] :
    ∀ (l seen : List α), (firstOccsAux seen l).Nodup := by
  intro l
  induction l with
  | nil => intro seen; simp [firstOccsAux]
  | cons y ys ih =>
    intro seen
    by_cases hy : y ∈ seen
    · rw [firstOccsAux, if_pos hy]
      exact ih seen
    · rw [firstOccsAux, if_neg hy]
      refine List.nodup_cons.mpr ⟨?_, ih (y :: seen)⟩
      intro hmem
      exact ((mem_firstOccsAux ys (y :: seen) y).mp hmem).2 (List.mem_cons_self _ _)

theorem firstOccs_nodup {α : Type} [DecidableEq α] (l : List α) :
    (firstOccs l).Nodup := firstOccsAux_nodup l []

theorem firstOccsAux_replicate_skip {α : Type} [DecidableEq α] (d : α) :
    ∀ (k : Nat) (t seen : List α), d ∈ seen →
      firstOccsAux seen (List.replicate k d ++ t) = firstOccsAux seen t := by
  intro k
  induction k with
  | zero => intro t seen _; simp
  | succ k ih =>
    intro t seen hd
    rw [List.replicate_succ, List.cons_append, firstOccsAux, if_pos hd]
    exact ih t seen hd

/-- `firstOccs` of a run-length grouped list recovers the (nodup) keys. -/
theorem firstOccsAux_grouped {α : Type} [DecidableEq α] :
    ∀ (ds : List α) (n : α → Nat) (seen : List α),
      ds.Nodup → (∀ d ∈ ds, d ∉ seen) → (∀ d ∈ ds, 0 < n d) →
      firstOccsAux seen (ds.flatMap (fun d => List.replicate (n d) d)) = ds := by
  intro ds
  induction ds with
  | nil => intro n seen _ _ _; simp [firstOccsAux]
  | cons d ds' ih =>
    intro n seen hnd hseen hpos
    rw [List.flatMap_cons]
    obtain ⟨k, hk⟩ : ∃ k, n d = k + 1 := ⟨n d - 1, by have := hpos d (by simp); omega⟩
    rw [hk, List.replicate_succ, List.cons_append, firstOccsAux,
      if_neg (hseen d (by simp)),
      firstOccsAux_replicate_skip d k _ _ (by simp)]
    congr 1
    refine ih n (d :: seen) (List.nodup_cons.mp hnd).2 ?_ (fun d' hd' => hpos d' (by simp [hd']))
    intro d' hd'
    simp only [List.mem_cons]
    push_neg
    exact ⟨fun he => (List.nodup_cons.mp hnd).1 (he ▸ hd'),
      hseen d' (by simp [hd'])⟩

theorem flatMap_congr_mem {α β : Type} (l : List α) (f g : α → List β)
    (h : ∀ a ∈ l, f a = g a) : l.flatMap f = l.flatMap g := by
  induction l with
  | nil => rfl
  | cons a as ih =>
    rw [List.flatMap_cons, List.flatMap_cons, h a (by simp),
      ih (fun x hx => h x (by simp [hx]))]

/-! ### Structure of `regrouped` -/

theorem docGroup_doc (ms : List ChunkMeta) (d : Int) :
    ∀ m ∈ docGroup ms d, m.document_id = d := by
  intro m hm
  have h : m ∈ ms.filter (fun m => decide (m.document_id = d)) :=
    (List.mem_insertionSort chunkOrder).mp hm
  simpa using List.of_mem_filter h

theorem docGroup_ne_nil (ms : List ChunkMeta) (d : Int)
    (h : d ∈ ms.map (fun m => m.document_id)) : docGroup ms d ≠ [] := by
  obtain ⟨m, hm, he⟩ := List.mem_map.mp h
  intro hnil
  have hmem : m ∈ docGroup ms d := by
    rw [docGroup, List.mem_insertionSort]
    exact List.mem_filter.mpr ⟨hm, by simpa using he⟩
  simp [hnil] at hmem

theorem map_doc_eq_replicate (g : List ChunkMeta) (d : Int)
    (h : ∀ m ∈ g, m.document_id = d) :
    g.map (fun m => m.document_id) = List.replicate g.length d := by
  induction g with
  | nil => rfl
  | cons m rest ih =>
    rw [List.map_cons, List.length_cons, List.replicate_succ, h m (by simp),
      ih (fun x hx => h x (by simp [hx]))]

theorem filter_eq_nil_of_doc_ne (t : List ChunkMeta) (d : Int)
    (h : ∀ m ∈ t, m.document_id ≠ d) :
    t.filter (fun m => decide (m.document_id = d)) = [] :=
  List.filter_eq_nil_iff.mpr (fun m hm => by simpa using h m hm)

theorem regrouped_subset (ms : List ChunkMeta) : ∀ m ∈ regrouped ms, m ∈ ms := by
  intro m hm
  obtain ⟨d, _, hmd⟩ := List.mem_flatMap.mp hm
  exact List.mem_of_mem_filter ((List.mem_insertionSort chunkOrder).mp hmd)

theorem regrouped_docs (ms : List ChunkMeta) :
    firstOccs ((regrouped ms).map (fun m => m.document_id)) =
      firstOccs (ms.map (fun m => m.document_id)) := by
  have hmap : (regrouped ms).map (fun m => m.document_id) =
      (firstOccs (ms.map (fun m => m.document_id))).flatMap
        (fun d => List.replicate (docGroup ms d).length d) := by
    rw [regrouped, List.map_flatMap]
    exact flatMap_congr_mem _ _ _
      (fun d _ => map_doc_eq_replicate _ _ (docGroup_doc ms d))
  rw [hmap, firstOccs,
    firstOccsAux_grouped _ _ [] (firstOccs_nodup _) (by simp) ?_]
  intro d hd
  have hmem : d ∈ ms.map (fun m => m.document_id) := (mem_firstOccs _ _).mp hd
  have hne := docGroup_ne_nil ms d hmem
  exact List.length_pos.mpr hne

theorem filter_flatMap_groups (G : Int → List ChunkMeta) (d : Int) :
    ∀ ds : List Int, ds.Nodup →
      (∀ d' ∈ ds, ∀ m ∈ G d', m.document_id = d') → d ∈ ds →
      (ds.flatMap G).filter (fun m => decide (m.document_id = d)) = G d := by
  intro ds
  induction ds with
  | nil => intro _ _ h; simp at h
  | cons d0 ds' ih =>
    intro hnd hG hd
    rw [List.flatMap_cons, List.filter_append]
    rcases List.mem_cons.mp hd with rfl | hd'
    · have h1 : (G d).filter (fun m => decide (m.document_id = d)) = G d :=
        List.filter_eq_self.mpr (fun m hm => by simpa using hG d (by simp) m hm)
      have h2 : (ds'.flatMap G).filter (fun m => decide (m.document_id = d)) = [] := by
        apply filter_eq_nil_of_doc_ne
        intro m hm he
        obtain ⟨d', hd', hmd'⟩ := List.mem_flatMap.mp hm
        have hmd := hG d' (by simp [hd']) m hmd'
        have hdd : d = d' := by rw [← he, hmd]
        exact (List.nodup_cons.mp hnd).1 (hdd ▸ hd')
      rw [h1, h2, List.append_nil]
    · have hne : d ≠ d0 := fun he => (List.nodup_cons.mp hnd).1 (he ▸ hd')
      have h1 : (G d0).filter (fun m => decide (m.document_id = d)) = [] := by
        apply filter_eq_nil_of_doc_ne
        intro m hm he
        exact hne (by rw [← he, hG d0 (by simp) m hm])
      rw [h1, List.nil_append]
      exact ih (List.nodup_cons.mp hnd).2 (fun d' hd'' => hG d' (by simp [hd''])) hd'

theorem regrouped_filter (ms : List ChunkMeta) (d : Int)
    (hd : d ∈ ms.map (fun m => m.document_id)) :
    (regrouped ms).filter (fun m => decide (m.document_id = d)) = docGroup ms d := by
  rw [regrouped]
  exact filter_flatMap_groups (docGroup ms) d _ (firstOccs_nodup _)
    (fun d' _ => docGroup_doc ms d') ((mem_firstOccs _ _).mpr hd)

theorem regrouped_idem (ms : List ChunkMeta) :
    regrouped (regrouped ms) = regrouped ms := by
  have hgr : ∀ d ∈ firstOccs (ms.map (fun m => m.document_id)),
      docGroup (regrouped ms) d = docGroup ms d := by
    intro d hd
    have hd' : d ∈ ms.map (fun m => m.document_id) := (mem_firstOccs _ _).mp hd
    rw [docGroup, regrouped_filter ms d hd']
    exact (List.sorted_insertionSort chunkOrder _).insertionSort_eq
  conv_lhs => rw [regrouped]
  rw [regrouped_docs, flatMap_congr_mem _ _ _ hgr]
  rfl

/-! ### C5 — the `chunk_index` invariant -/

theorem buildEntries_snd_doc (d : Int) (ti : String) (start : Nat) :
    ∀ (l : List String) (i : Nat) (p : Nat × ChunkMeta),
      p ∈ buildEntries d ti start i l → p.2.document_id = d := by
  intro l
  induction l with
  | nil => intro i p hp; simp [buildEntries] at hp
  | cons c rest ih =>
    intro i p hp
    rcases List.mem_cons.mp (by simpa [buildEntries] using hp) with rfl | hp'
    · rfl
    · exact ih (i + 1) p hp'

theorem buildEntries_chunk_idxs (d : Int) (ti : String) (start : Nat) :
    ∀ (l : List String) (i : Nat),
      ((buildEntries d ti start i l).map Prod.snd).map (fun m => m.chunk_index) =
        List.range' i l.length := by
  intro l
  induction l with
  | nil => intro i; simp [buildEntries]
  | cons c rest ih =>
    intro i
    simp only [buildEntries, List.map_cons, List.length_cons, List.range'_succ, ih]

theorem invariant_append_fresh (ms new : List ChunkMeta) (dNew : Int)
    (h : chunkInvariant ms)
    (hfresh : dNew ∉ ms.map (fun m => m.document_id))
    (hnewdoc : ∀ m ∈ new, m.document_id = dNew)
    (hidxs : new.map (fun m => m.chunk_index) = List.range new.length) :
    chunkInvariant (ms ++ new) := by
  intro d' hd'
  unfold docIdxs docRecords
  rw [List.filter_append, List.map_append]
  by_cases hdd : d' = dNew
  · subst hdd
    have h1 : ms.filter (fun m => decide (m.document_id = d')) = [] :=
      filter_eq_nil_of_doc_ne _ _
        (fun m hm he => hfresh (he ▸ List.mem_map_of_mem _ hm))
    have h2 : new.filter (fun m => decide (m.document_id = d')) = new :=
      List.filter_eq_self.mpr (fun m hm => by simpa using hnewdoc m hm)
    rw [h1, h2]
    simpa using hidxs
  · have h2 : new.filter (fun m => decide (m.document_id = d')) = [] :=
      filter_eq_nil_of_doc_ne _ _ (fun m hm he => hdd (by rw [← he, hnewdoc m hm]))
    rw [h2]
    simp only [List.map_nil, List.append_nil]
    have hd'' : d' ∈ ms.map (fun m => m.document_id) := by
      rw [List.map_append] at hd'
      rcases List.mem_append.mp hd' with hmem | hmem
      · exact hmem
      · obtain ⟨m, hm, he⟩ := List.mem_map.mp hmem
        exact absurd (by rw [← he, hnewdoc m hm]) hdd
    exact h d' hd''

theorem invariant_filter_ne (ms : List ChunkMeta) (d : Int)
    (h : chunkInvariant ms) :
    chunkInvariant (ms.filter (fun m => decide (m.document_id ≠ d))) := by
  intro d' hd'
  obtain ⟨m, hm, he⟩ := List.mem_map.mp hd'
  have hmf := List.mem_filter.mp hm
  have hne : m.document_id ≠ d := by simpa using hmf.2
  have hdd : d' ≠ d := by rw [← he]; exact hne
  have heq : docRecords (ms.filter (fun m => decide (m.document_id ≠ d))) d' =
      docRecords ms d' := by
    unfold docRecords
    rw [List.filter_filter]
    apply List.filter_congr
    intro x _
    by_cases hxd : x.document_id = d'
    · simp [hxd, hdd]
    · simp [hxd]
  unfold docIdxs at *
  rw [heq]
  exact h d' (he ▸ List.mem_map_of_mem _ hmf.1)

theorem invariant_regrouped (ms : List ChunkMeta)
    (h : chunkInvariant ms) : chunkInvariant (regrouped ms) := by
  intro d' hd'
  have hd'' : d' ∈ ms.map (fun m => m.document_id) := by
    obtain ⟨m, hm, he⟩ := List.mem_map.mp hd'
    exact he ▸ List.mem_map_of_mem _ (regrouped_subset ms m hm)
  have hrec : docRecords (regrouped ms) d' = docRecords ms d' := by
    unfold docRecords
    rw [regrouped_filter ms d' hd'', docGroup]
    apply List.Sorted.insertionSort_eq
    have hinv := h d' hd''
    have hpw : List.Pairwise (fun a b : Nat => a ≤ b)
        ((ms.filter (fun m => decide (m.document_id = d'))).map
          (fun m => m.chunk_index)) := by
      have hx : (ms.filter (fun m => decide (m.document_id = d'))).map
          (fun m => m.chunk_index) = docIdxs ms d' := rfl
      rw [hx, hinv]
      exact List.pairwise_le_range _
    exact (@List.pairwise_map ChunkMeta Nat (fun m => m.chunk_index)
      (fun a b => a ≤ b) (ms.filter (fun m => decide (m.document_id = d')))).mp hpw
  unfold docIdxs
  rw [hrec]
  exact h d' hd''

/-- Whatever the outcome, `remove_document_from_index` leaves the state
unchanged or replaces the records by those of the other documents,
renumbered. -/
theorem remove_metas_cases (sv : Bool) (s : IndexerState) (d : Int) :
    (removeDocumentFromIndex sv s d).2 = s ∨
    metas (removeDocumentFromIndex sv s d).2 =
      (metas s).filter (fun m => decide (m.document_id ≠ d)) := by
  cases hidx : s.index with
  | none => left; simp [removeDocumentFromIndex, hidx]
  | some vs =>
    cases hrec : reconstructAll vs ((s.metadata.filter
        (fun p => decide (p.2.document_id ≠ d))).map Prod.fst) with
    | none =>
      left
      simp only [removeDocumentFromIndex, hidx]
      rw [hrec]
    | some ws =>
      right
      have hsnd : (removeDocumentFromIndex sv s d).2 =
          (if s.metadata.filter (fun p => decide (p.2.document_id ≠ d)) = [] then
            (⟨some [], [], s.dimension⟩ : IndexerState)
          else
            ⟨some ws,
              renumberFrom 0 ((s.metadata.filter
                (fun p => decide (p.2.document_id ≠ d))).map Prod.snd),
              s.dimension⟩) := by
        simp only [removeDocumentFromIndex, hidx]
        rw [hrec]
        cases sv <;> rfl
      rw [hsnd]
      simp only [metas]
      rw [← map_snd_filter_snd]
      by_cases hke : s.metadata.filter (fun p => decide (p.2.document_id ≠ d)) = []
      · rw [if_pos hke, hke]
      · rw [if_neg hke]
        exact renumberFrom_map_snd 0 _


theorem find_self (s : IndexerState) (m : ChunkMeta) (hm : m ∈ metas s) :
    (s.metadata.find? (fun q => decide (q.2 = m))).isSome := by
  obtain ⟨p, hp, he⟩ := List.mem_map.mp hm
  rw [List.find?_isSome]
  exact ⟨p, hp, by simpa using he⟩

theorem collectRebuild_snd (s : IndexerState) (vs : List (List Int)) :
    ∀ (l : List ChunkMeta) (pairs : List (List Int × ChunkMeta)),
      (∀ m ∈ l, (s.metadata.find? (fun q => decide (q.2 = m))).isSome) →
      collectRebuild s vs l = some pairs →
      pairs.map Prod.snd = l := by
  intro l
  induction l with
  | nil =>
    intro pairs _ h
    rw [collectRebuild] at h
    obtain rfl := (Option.some.injEq _ _).mp h
    rfl
  | cons m rest ih =>
    intro pairs hall h
    rw [collectRebuild] at h
    cases hf : s.metadata.find? (fun q => decide (q.2 = m)) with
    | none => exact absurd (hall m (by simp)) (by simp [hf])
    | some q =>
      rw [hf] at h
      have h1 : (match vs[q.1]? with
          | none => none
          | some v => Option.map (fun ps => (v, m) :: ps) (collectRebuild s vs rest)) =
          some pairs := h
      cases hv : vs[q.1]? with
      | none => rw [hv] at h1; simp at h1
      | some v =>
        rw [hv] at h1
        have h2 : Option.map (fun ps => (v, m) :: ps) (collectRebuild s vs rest) =
            some pairs := h1
        cases hrest : collectRebuild s vs rest with
        | none => rw [hrest] at h2; simp at h2
        | some ps =>
          rw [hrest] at h2
          simp only [Option.map_some', Option.some.injEq] at h2
          rw [← h2, List.map_cons, ih ps (fun x hx => hall x (by simp [hx])) hrest]

theorem collectRebuild_isSome (s : IndexerState) (vs : List (List Int)) :
    ∀ (l : List ChunkMeta),
      (∀ m ∈ l, ∃ q, s.metadata.find? (fun q' => decide (q'.2 = m)) = some q ∧
        q.1 < vs.length) →
      ∃ pairs, collectRebuild s vs l = some pairs ∧ pairs.length = l.length := by
  intro l
  induction l with
  | nil => intro _; exact ⟨[], rfl, rfl⟩
  | cons m rest ih =>
    intro hall
    obtain ⟨q, hq, hql⟩ := hall m (by simp)
    obtain ⟨ps, hps, hlen⟩ := ih (fun x hx => hall x (by simp [hx]))
    refine ⟨(vs[q.1], m) :: ps, ?_, by simp [hlen]⟩
    rw [collectRebuild, hq]
    show (match vs[q.1]? with
        | none => none
        | some v => Option.map (fun qs => (v, m) :: qs) (collectRebuild s vs rest)) =
        some ((vs[q.1], m) :: ps)
    rw [List.getElem?_eq_getElem hql]
    show Option.map (fun qs => (vs[q.1], m) :: qs) (collectRebuild s vs rest) =
        some ((vs[q.1], m) :: ps)
    rw [hps]
    rfl

/-- Whatever the outcome, `rebuild_index` leaves the state unchanged or
replaces the records by the grouped-and-sorted sequence, renumbered. -/
theorem rebuild_metas_cases (sv : Bool) (s : IndexerState) :
    (rebuildIndex sv s).2 = s ∨
    metas (rebuildIndex sv s).2 = regrouped (metas s) := by
  by_cases hm : s.metadata = []
  · left; simp [rebuildIndex, hm]
  · cases hidx : s.index with
    | none => left; simp [rebuildIndex, hm, hidx]
    | some vs =>
      cases hcol : collectRebuild s vs (regrouped (metas s)) with
      | none =>
        left
        simp only [rebuildIndex, if_neg hm, hidx, hcol]
      | some pairs =>
        by_cases hfst : pairs.map Prod.fst = []
        · left
          simp only [rebuildIndex, if_neg hm, hidx, hcol, if_pos hfst]
        · right
          have hsnd : (rebuildIndex sv s).2 =
              (⟨some (pairs.map Prod.fst), renumberFrom 0 (pairs.map Prod.snd),
                s.dimension⟩ : IndexerState) := by
            simp only [rebuildIndex, if_neg hm, hidx, hcol, if_neg hfst]
            cases sv <;> rfl
          rw [hsnd]
          have hsnds : pairs.map Prod.snd = regrouped (metas s) :=
            collectRebuild_snd s vs _ pairs
              (fun m hmm => find_self s m (regrouped_subset (metas s) m hmm)) hcol
          show (renumberFrom 0 (pairs.map Prod.snd)).map Prod.snd = _
          rw [renumberFrom_map_snd, hsnds]

theorem add_metas (embed : String → List Int) (csArg ovArg : Nat) (sv : Bool)
    (s : IndexerState) (d : Int) (t ti : String)
    (hc : chunkText t csArg ovArg ≠ []) :
    ∃ start, metas (addDocumentToIndex embed csArg ovArg sv s d t ti).2 =
      metas s ++ (buildEntries d ti start 0 (chunkText t csArg ovArg)).map Prod.snd := by
  refine ⟨(match s.index with | none => [] | some vs => vs).length, ?_⟩
  cases sv <;> simp [addDocumentToIndex, hc, metas]

/-- C5 (amended): the per-document `chunk_index` invariant (`0..K-1` in
storage order) is preserved by `remove_document_from_index` and
`rebuild_index` unconditionally (compaction renumbers vector ids but keeps
per-document record order), and by `add_document_to_index` PROVIDED the added
document id is not already present — adding an existing id appends a second
`0..n-1` run and breaks the invariant, contrary to the claim's "every
operation" (see the counterexample). -/
theorem chunk_index_invariant_preserved :
    (∀ (embed : String → List Int) (csArg ovArg : Nat) (sv : Bool)
        (s : IndexerState) (d : Int) (t ti : String),
      chunkInvariant (metas s) →
      d ∉ (metas s).map (fun m => m.document_id) →
      chunkInvariant (metas (addDocumentToIndex embed csArg ovArg sv s d t ti).2)) ∧
    (∀ (sv : Bool) (s : IndexerState) (d : Int),
      chunkInvariant (metas s) →
      chunkInvariant (metas (removeDocumentFromIndex sv s d).2)) ∧
    (∀ (sv : Bool) (s : IndexerState),
      chunkInvariant (metas s) →
      chunkInvariant (metas (rebuildIndex sv s).2)) := by
  refine ⟨?_, ?_, ?_⟩
  · intro embed csArg ovArg sv s d t ti hinv hfresh
    by_cases hc : chunkText t csArg ovArg = []
    · have hs : (addDocumentToIndex embed csArg ovArg sv s d t ti).2 = s := by
        simp [addDocumentToIndex, hc]
      rw [hs]
      exact hinv
    · obtain ⟨start, hmeq⟩ := add_metas embed csArg ovArg sv s d t ti hc
      rw [hmeq]
      refine invariant_append_fresh _ _ d hinv hfresh ?_ ?_
      · intro m hm
        obtain ⟨p, hp, he⟩ := List.mem_map.mp hm
        exact he ▸ buildEntries_snd_doc d ti start _ 0 p hp
      · have hlen : ((buildEntries d ti start 0 (chunkText t csArg ovArg)).map
            Prod.snd).length = (chunkText t csArg ovArg).length := by
          have h := congrArg List.length (buildEntries_chunk_idxs d ti start
            (chunkText t csArg ovArg) 0)
          simpa using h
        rw [buildEntries_chunk_idxs, hlen, List.range_eq_range']
  · intro sv s d hinv
    rcases remove_metas_cases sv s d with h | h
    · rw [h]; exact hinv
    · rw [h]; exact invariant_filter_ne _ _ hinv
  · intro sv s hinv
    rcases rebuild_metas_cases sv s with h | h
    · rw [h]; exact hinv
    · rw [h]; exact invariant_regrouped _ hinv

/-- A state holding one document with two fragments (`chunk_index` 0, 1). -/
def sampleStateInv : IndexerState :=
  ⟨some [[1], [2]], [(0, ⟨1, 0, "a", "t", 1⟩), (1, ⟨1, 1, "b", "t", 1⟩)], some 1⟩

/-- C5 counterexample to the claim as stated: `add_document_to_index` with a
document id that is already present appends a fresh `chunk_index = 0` record
after the document's existing `0, 1` run, so the invariant does not survive
"every operation". -/
theorem chunk_index_invariant_preserved_cex :
    chunkInvariant (metas sampleStateInv) ∧
    ¬ chunkInvariant
      (metas (addDocumentToIndex (fun _ => [3]) 0 0 true sampleStateInv 1 "c" "t").2) := by
  constructor
  · decide
  · decide

theorem chunk_index_invariant_preserved_witness :
    chunkInvariant
      (metas (addDocumentToIndex (fun _ => [9]) 0 0 true sampleStateInv 2 "x" "t").2) ∧
    chunkInvariant (metas (removeDocumentFromIndex true sampleStateInv 1).2) ∧
    chunkInvariant (metas (rebuildIndex true sampleStateInv).2) :=
  ⟨chunk_index_invariant_preserved.1 (fun _ => [9]) 0 0 true sampleStateInv 2 "x" "t"
      (by decide) (by decide),
   chunk_index_invariant_preserved.2.1 true sampleStateInv 1 (by decide),
   chunk_index_invariant_preserved.2.2 true sampleStateInv (by decide)⟩

/-! ### C6 — rebuilding twice is stable -/

theorem rebuild_eval (s : IndexerState) (vs : List (List Int))
    (pairs : List (List Int × ChunkMeta))
    (hm : s.metadata ≠ []) (hidx : s.index = some vs)
    (hcol : collectRebuild s vs (regrouped (metas s)) = some pairs)
    (hfst : pairs.map Prod.fst ≠ []) :
    rebuildIndex true s =
      (true, ⟨some (pairs.map Prod.fst), renumberFrom 0 (pairs.map Prod.snd),
        s.dimension⟩) := by
  simp only [rebuildIndex, if_neg hm, hidx, hcol, if_neg hfst]
  rfl

theorem rebuild_inversion (s s₁ : IndexerState)
    (h : rebuildIndex true s = (true, s₁)) :
    (s.metadata = [] ∧ s₁ = s) ∨
    (∃ vs pairs, s.index = some vs ∧
      collectRebuild s vs (regrouped (metas s)) = some pairs ∧
      pairs ≠ [] ∧
      s₁ = ⟨some (pairs.map Prod.fst), renumberFrom 0 (pairs.map Prod.snd),
        s.dimension⟩) := by
  by_cases hm : s.metadata = []
  · left
    refine ⟨hm, ?_⟩
    simp only [rebuildIndex, if_pos hm, Prod.mk.injEq, true_and] at h
    exact h.symm
  · right
    cases hidx : s.index with
    | none =>
      simp only [rebuildIndex, if_neg hm, hidx] at h
      simp at h
    | some vs =>
      cases hcol : collectRebuild s vs (regrouped (metas s)) with
      | none =>
        simp only [rebuildIndex, if_neg hm, hidx, hcol] at h
        simp at h
      | some pairs =>
        by_cases hfst : pairs.map Prod.fst = []
        · simp only [rebuildIndex, if_neg hm, hidx, hcol, if_pos hfst] at h
          simp at h
        · simp only [rebuildIndex, if_neg hm, hidx, hcol, if_neg hfst] at h
          refine ⟨vs, pairs, rfl, hcol, fun hnil => hfst (by simp [hnil]), ?_⟩
          have h2 : ((true : Bool),
              (⟨some (pairs.map Prod.fst), renumberFrom 0 (pairs.map Prod.snd),
                s.dimension⟩ : IndexerState)) = (true, s₁) := h
          exact ((Prod.mk.injEq _ _ _ _).mp h2).2.symm

/-- C6: a successful `rebuild_index` run followed by a second run yields
success again with the same total vector count, the same record sequence, and
in particular the same ordered metadata records per document (vector ids are
the only thing reassigned); and `rebuild_index` on an empty store is a no-op
reporting success. -/
theorem rebuild_twice_stable :
    (∀ (s s₁ : IndexerState), rebuildIndex true s = (true, s₁) →
      (rebuildIndex true s₁).1 = true ∧
      totalVectors (rebuildIndex true s₁).2 = totalVectors s₁ ∧
      metas (rebuildIndex true s₁).2 = metas s₁ ∧
      (∀ d : Int, docRecords (metas (rebuildIndex true s₁).2) d =
        docRecords (metas s₁) d)) ∧
    (∀ s : IndexerState, s.metadata = [] → rebuildIndex true s = (true, s)) := by
  constructor
  · intro s s₁ h
    rcases rebuild_inversion s s₁ h with ⟨hm, he⟩ | ⟨vs, pairs, hidx, hcol, hne, he⟩
    · have h2 : rebuildIndex true s = (true, s) := by simp [rebuildIndex, hm]
      rw [he, h2]
      exact ⟨rfl, rfl, rfl, fun _ => rfl⟩
    · rw [he]
      set snds := pairs.map Prod.snd with hsnds_def
      set sB := (⟨some (pairs.map Prod.fst), renumberFrom 0 snds,
        s.dimension⟩ : IndexerState) with hsB
      have hsnds : snds = regrouped (metas s) :=
        collectRebuild_snd s vs _ pairs
          (fun m hmm => find_self s m (regrouped_subset (metas s) m hmm)) hcol
      have hm1 : metas sB = snds := by
        show (renumberFrom 0 snds).map Prod.snd = snds
        exact renumberFrom_map_snd 0 snds
      have hsne : snds ≠ [] := fun hnil =>
        hne (List.map_eq_nil_iff.mp hnil)
      have hmeta_ne : sB.metadata ≠ [] := by
        show renumberFrom 0 snds ≠ []
        cases hc : snds with
        | nil => exact absurd hc hsne
        | cons a as => simp [renumberFrom]
      have hre : regrouped (metas sB) = metas sB := by
        calc regrouped (metas sB) = regrouped snds := by rw [hm1]
          _ = regrouped (regrouped (metas s)) := by rw [hsnds]
          _ = regrouped (metas s) := regrouped_idem _
          _ = snds := hsnds.symm
          _ = metas sB := hm1.symm
      have hfind : ∀ m ∈ metas sB,
          ∃ q, sB.metadata.find? (fun q' => decide (q'.2 = m)) = some q ∧
            q.1 < (pairs.map Prod.fst).length := by
        intro m hmm
        obtain ⟨q, hq⟩ := Option.isSome_iff_exists.mp (find_self sB m hmm)
        refine ⟨q, hq, ?_⟩
        have hlt := renumberFrom_fst_lt 0 snds q (List.mem_of_find?_eq_some hq)
        have hlen : snds.length = pairs.length := by simp [hsnds_def]
        simp only [List.length_map]
        omega
      obtain ⟨pairs₂, hcol₂, hlen₂⟩ :=
        collectRebuild_isSome sB (pairs.map Prod.fst) (metas sB) hfind
      have hcol₂' : collectRebuild sB (pairs.map Prod.fst)
          (regrouped (metas sB)) = some pairs₂ := by
        rw [hre]; exact hcol₂
      have hsnd₂ : pairs₂.map Prod.snd = metas sB :=
        collectRebuild_snd sB (pairs.map Prod.fst) (metas sB) pairs₂
          (fun m hmm => find_self sB m hmm) hcol₂
      have hfst₂ : pairs₂.map Prod.fst ≠ [] := by
        intro hnil
        have hp2 : pairs₂ = [] := List.map_eq_nil_iff.mp hnil
        rw [hp2] at hlen₂
        have hpos : 0 < (metas sB).length := by
          rw [hm1]
          exact List.length_pos.mpr hsne
        simp at hlen₂
        omega
      have heval := rebuild_eval sB (pairs.map Prod.fst) pairs₂ hmeta_ne rfl
        hcol₂' hfst₂
      rw [heval]
      have hmfin : metas (⟨some (pairs₂.map Prod.fst),
          renumberFrom 0 (pairs₂.map Prod.snd), sB.dimension⟩ : IndexerState) =
          metas sB := by
        show (renumberFrom 0 (pairs₂.map Prod.snd)).map Prod.snd = metas sB
        rw [renumberFrom_map_snd, hsnd₂]
      refine ⟨rfl, ?_, hmfin, fun d => by rw [hmfin]⟩
      show (pairs₂.map Prod.fst).length = totalVectors sB
      have e1 : (pairs₂.map Prod.fst).length = (metas sB).length := by
        simp [hlen₂]
      have e2 : totalVectors sB = (metas sB).length := by
        show (pairs.map Prod.fst).length = (metas sB).length
        rw [hm1]
        simp [hsnds_def]
      rw [e1, e2]
  · intro s h
    simp [rebuildIndex, h]

theorem rebuild_twice_stable_witness :
    (rebuildIndex true sampleStateTwo).1 = true ∧
    totalVectors (rebuildIndex true sampleStateTwo).2 =
      totalVectors sampleStateTwo ∧
    metas (rebuildIndex true sampleStateTwo).2 = metas sampleStateTwo ∧
    docRecords (metas (rebuildIndex true sampleStateTwo).2) 1 =
      docRecords (metas sampleStateTwo) 1 ∧
    rebuildIndex true emptyIndexerState = (true, emptyIndexerState) := by
  obtain ⟨h1, h2, h3, h4⟩ :=
    rebuild_twice_stable.1 sampleStateTwo sampleStateTwo (by decide)
  exact ⟨h1, h2, h3, h4 1, rebuild_twice_stable.2 emptyIndexerState rfl⟩
